import Mathlib

/-!
Verification of the router and RAG pipeline in main.py.

Strings are modelled as lists of characters (Python str over its code
points, restricted to the ASCII range where Python's case folding,
whitespace and word-character classes agree with this development).
The regular expressions of the Router are embedded by direct decision
procedures implementing Python's word-boundary semantics for the
specific patterns compiled in the source.  Python floats are modelled
as exact rationals: every score is one of the constants 0, 0.7, 0.8,
1.0, 2.0 and for each subset of these constants the IEEE double sum
compares against the threshold 1.5 exactly as the rational sum does
(the doubles 0.8 and 0.7 even add to exactly 1.5), so the rational
model reproduces every float comparison appearing below.  Wall-clock
timestamps (now_ts) are passed in as explicit parameters.
-/

abbrev Str := List Char

/-- Python str.strip whitespace, ASCII range. -/
def pyIsSpace (c : Char) : Bool :=
  c = ' ' || c = '\t' || c = '\n' || c = '\x0d' || c = '\x0b' || c = '\x0c'

/-- Python regex word character over ASCII: letters, digits, underscore. -/
def isWordChar (c : Char) : Bool :=
  c.isAlpha || c.isDigit || c = '_'

/-- Python str.rstrip(). -/
def pyRstrip (s : Str) : Str :=
  (s.reverse.dropWhile pyIsSpace).reverse

/-- Python str.strip(). -/
def pyStrip (s : Str) : Str :=
  pyRstrip (s.dropWhile pyIsSpace)

/-- Lower-casing of a string, which is how re.I is modelled for the
pure-ASCII patterns of the Router. -/
def lowerStr (s : Str) : Str := s.map Char.toLower

/-- Test whether the literal pattern (first argument) occurs at the
head of the string (second argument). -/
def startsWith : Str → Str → Bool
  | [], _ => true
  | _ :: _, [] => false
  | p :: ps, c :: cs => p = c && startsWith ps cs

/-- Test whether the literal pattern occurs at the end of the string. -/
def endsWith (pat s : Str) : Bool := startsWith pat.reverse s.reverse

/-- Word boundary just left of a word character: satisfied when the
character to the left is absent or is not a word character. -/
def leftBd : Option Char → Bool
  | none => true
  | some c => !(isWordChar c)

/-- Word boundary just right of a word character: satisfied when the
next character is absent or is not a word character. -/
def nonWordNext : Str → Bool
  | [] => true
  | c :: _ => !(isWordChar c)

/-- Word boundary just right of a NON-word character (such as a colon
or percent sign): the next character must exist and be a word
character. -/
def nextIsWord : Str → Bool
  | [] => false
  | c :: _ => isWordChar c

/-- Last character of the list, or the fallback when the list is
empty: the character standing immediately left of the position that
follows this list. -/
def lastOr (prev : Option Char) : Str → Option Char
  | [] => prev
  | c :: cs => lastOr (some c) cs

/-- Semantics of re.search as a scan: try the position-local matcher
at every position of the string, tracking the character to the left of
the current position. -/
def scanHit (hitAt : Option Char → Str → Bool) : Option Char → Str → Bool
  | prev, [] => hitAt prev []
  | prev, c :: cs => hitAt prev (c :: cs) || scanHit hitAt (some c) cs

/-- Alternatives of Router.QUESTION_WORDS (each consists solely of
word characters). -/
def QUESTION_WORDS : List Str :=
  ["who".toList, "what".toList, "when".toList, "where".toList,
   "why".toList, "how".toList, "which".toList]

/-- Alternatives of Router.TRIGGER_TOKENS, each ending in a colon. -/
def TRIGGER_TOKENS : List Str :=
  ["search:".toList, "lookup:".toList, "cite:".toList,
   "sources:".toList, "verify:".toList]

/-- Alternatives of Router.SOURCE_WORDS (each consists solely of word
characters). -/
def SOURCE_WORDS : List Str :=
  ["source".toList, "cite".toList, "reference".toList,
   "evidence".toList, "stats".toList, "data".toList]

/-- Position-local matcher for a pattern of the shape
boundary-(w1|w2|...)-boundary where every alternative consists solely
of word characters. -/
def wordHitAt (words : List Str) (prev : Option Char) (cs : Str) : Bool :=
  words.any fun w =>
    startsWith w cs && leftBd prev && nonWordNext (cs.drop w.length)

/-- Position-local matcher for the TRIGGER_TOKENS pattern: each token
starts with a word character, so the left boundary needs a non-word
character or nothing before the token; each token ends with a colon,
so the right boundary needs a word character right after the colon. -/
def trigHitAt (prev : Option Char) (cs : Str) : Bool :=
  TRIGGER_TOKENS.any fun w =>
    startsWith w cs && leftBd prev && nextIsWord (cs.drop w.length)

/-- Position-local matcher for the length/specificity pattern of the
Router (compiled WITHOUT re.I in the source).  Branches in alternation
order: a standalone run of exactly 4 digits; one or more digits then a
percent sign followed by a word character; a percent sign between two
word characters; the literal words exactly and precisely. -/
def lengthHitAt (prev : Option Char) (cs : Str) : Bool :=
  let run := cs.takeWhile Char.isDigit
  let rest := cs.drop run.length
  (leftBd prev && run.length == 4 && nonWordNext rest) ||
  (leftBd prev && !run.isEmpty && startsWith "%".toList rest &&
    nextIsWord (rest.drop 1)) ||
  ((match prev with | some c => isWordChar c | none => false) &&
    startsWith "%".toList cs && nextIsWord (cs.drop 1)) ||
  (leftBd prev && startsWith "exactly".toList cs &&
    nonWordNext (cs.drop 7)) ||
  (leftBd prev && startsWith "precisely".toList cs &&
    nonWordNext (cs.drop 9))

def questionHit (s : Str) : Bool := scanHit (wordHitAt QUESTION_WORDS) none s

def triggerHit (s : Str) : Bool := scanHit trigHitAt none s

def sourceHit (s : Str) : Bool := scanHit (wordHitAt SOURCE_WORDS) none s

def lengthHit (s : Str) : Bool := scanHit lengthHitAt none s

/-- Diagnostic score dictionary built by Router.is_specific_question. -/
structure Scores where
  question_word : ℚ
  trigger : ℚ
  source_word : ℚ
  length : ℚ
deriving DecidableEq

namespace Router

/-- Model of Router.is_specific_question: strip the message, score the
four lexical signals, route iff the total reaches 1.5.  The three
case-insensitive patterns run on the lower-cased message; the
length/specificity pattern is case-sensitive in the source. -/
def is_specific_question (message : Str) : Bool × Scores :=
  let msg := pyStrip message
  let low := lowerStr msg
  let q : ℚ := if questionHit low then 1 else 0
  let t : ℚ := if triggerHit low then 2 else 0
  let sw : ℚ := if sourceHit low then 8/10 else 0
  let l : ℚ := if lengthHit msg then 7/10 else 0
  (decide ((3/2 : ℚ) ≤ q + t + sw + l), ⟨q, t, sw, l⟩)

end Router

/-- One search result: the dict with keys title, url, snippet, score,
fetched_at (floats as exact rationals). -/
structure SearchResult where
  title : Str
  url : Str
  snippet : Str
  score : ℚ
  fetched_at : ℚ
deriving DecidableEq

/-- One summary: the dict with keys source, title, summary. -/
structure Summary where
  source : Str
  title : Str
  summary : Str
deriving DecidableEq

/-- Answer dict of RAGFlow.answer.  The used_count field is an Option
because the source builds the dict literally and its degenerate branch
omits the used_count key. -/
structure RagResult where
  answer : Str
  citations : List Str
  used_count : Option Nat
deriving DecidableEq

/-- Length of the match of the scheme pattern (http or https scheme
marker, optionally followed by the www. label) at the head of the
string, 0 when it does not match here; the regex engine prefers the
longer alternatives since both optional parts are greedy. -/
def schemeLen (cs : Str) : Nat :=
  if startsWith "https://www.".toList cs then 12
  else if startsWith "https://".toList cs then 8
  else if startsWith "http://www.".toList cs then 11
  else if startsWith "http://".toList cs then 7
  else 0

/-- Model of re.sub for the scheme pattern with empty replacement:
delete every occurrence anywhere in the string, resuming the scan
right after each match.  Structural recursion on a fuel argument
initialised to the string length (each step consumes at least one
character, so the fuel never runs out). -/
def subSchemeFuel : Nat → Str → Str
  | 0, cs => cs
  | _ + 1, [] => []
  | fuel + 1, c :: cs =>
    if schemeLen (c :: cs) = 0 then c :: subSchemeFuel fuel cs
    else subSchemeFuel fuel (List.drop (schemeLen (c :: cs)) (c :: cs))

def subScheme (cs : Str) : Str := subSchemeFuel cs.length cs

/-- Domain computation of RAGFlow.validate: apply the scheme
substitution everywhere, then keep the part before the first slash. -/
def domain (url : Str) : Str :=
  (subScheme url).takeWhile (fun c => c != '/')

/-- Modelled from the spec: the claim describes the domain as the URL
with the scheme and a LEADING www. stripped, up to the first slash —
that is, a single leading occurrence of the scheme pattern removed,
unlike the global substitution the code performs.  This definition
follows the claim's words and exists to be compared with the one from
the source. -/
def specDomain (url : Str) : Str :=
  (url.drop (schemeLen url)).takeWhile (fun c => c != '/')

namespace RAGFlow

/-- Loop of RAGFlow.validate: seen is the set of domains accepted so
far (a list used only through membership). -/
def validateGo (seen : List Str) : List SearchResult → List SearchResult
  | [] => []
  | r :: rest =>
    if domain r.url ∈ seen then validateGo seen rest
    else if r.snippet.length < 20 then validateGo seen rest
    else r :: validateGo (domain r.url :: seen) rest

/-- Model of RAGFlow.validate. -/
def validate (results : List SearchResult) : List SearchResult :=
  validateGo [] results

/-- Spec-side helper used to state what validate computes: keep the
first result of each domain, with no snippet filtering. -/
def keepFirstByDomain (seen : List Str) : List SearchResult → List SearchResult
  | [] => []
  | r :: rest =>
    if domain r.url ∈ seen then keepFirstByDomain seen rest
    else r :: keepFirstByDomain (domain r.url :: seen) rest

/-- Single quote character. -/
def squote : Char := Char.ofNat 39

/-- Per-result body of RAGFlow.summarize: the snippet truncated to 200
characters, right-stripped, with the ellipsis marker appended exactly
when the snippet was longer than 200 characters. -/
def summarizeOne (r : SearchResult) : Summary :=
  ⟨r.url, r.title,
    pyRstrip (r.snippet.take 200) ++
      (if 200 < r.snippet.length then "...".toList else [])⟩

/-- Model of RAGFlow.summarize: the loop appends one summary per
validated result, in order. -/
def summarize (validated : List SearchResult) : List Summary :=
  validated.map summarizeOne

/-- Fixed degenerate answer text of RAGFlow.answer. -/
def noSourcesText : Str :=
  "I couldn".toList ++ [squote] ++ "t find reliable sources for that.".toList

/-- Composed body of the normal branch of RAGFlow.answer, built from
the given summaries (the code passes the first two). -/
def answerText (question : Str) (top : List Summary) : Str :=
  "Short answer to: ".toList ++ question ++ "\n\n".toList ++
    List.intercalate "\n\n".toList
      (top.map fun t => "From ".toList ++ t.title ++ ": ".toList ++ t.summary) ++
    "\n\n(See sources below.)".toList

/-- Model of RAGFlow.answer: degenerate branch for no summaries (its
dict carries no used_count key), otherwise compose from the first two
summaries and cite all of them. -/
def answer (question : Str) (summaries : List Summary) : RagResult :=
  match summaries with
  | [] => ⟨noSourcesText, [], none⟩
  | _ :: _ =>
    ⟨answerText question (summaries.take 2),
     summaries.map (fun t => t.source),
     some summaries.length⟩

/-- One fabricated result of the search stub, for index i. -/
def mkFake (question : Str) (now : ℚ) (i : Nat) : SearchResult :=
  ⟨"Result ".toList ++ (Nat.repr i).toList ++ " for: ".toList ++ question,
   "https://example.com/result-".toList ++ (Nat.repr i).toList,
   "Snippet ".toList ++ (Nat.repr i).toList ++
     " summarizing content relevant to ".toList ++ [squote] ++ question ++
     [squote] ++ "...".toList,
   1 / (i + 1),
   now⟩

/-- Model of RAGFlow.search: the bundled stub returning max_results
fabricated results (now stands for the now_ts reading). -/
def search (maxResults : Nat) (question : Str) (now : ℚ) : List SearchResult :=
  (List.range maxResults).map (mkFake question now)

/-- Aggregate returned by RAGFlow.run: the final dict together with
the attached artifacts. -/
structure RunResult where
  final : RagResult
  results : List SearchResult
  validated : List SearchResult
  summaries : List Summary
deriving DecidableEq

/-- Model of RAGFlow.run: search, validate, summarize, answer, then
attach the intermediate artifacts. -/
def run (maxResults : Nat) (question : Str) (now : ℚ) : RunResult :=
  let results := search maxResults question now
  let validated := validate results
  let summaries := summarize validated
  ⟨answer question summaries, results, validated, summaries⟩

end RAGFlow

/-- One history entry: the dict with keys role, text, ts. -/
structure Msg where
  role : Str
  text : Str
  ts : ℚ
deriving DecidableEq

namespace ConversationAgent

/-- Model of ConversationAgent.context_summary: the last 6 messages
joined as role-colon-text lines. -/
def context_summary (history : List Msg) : Str :=
  List.intercalate "\n".toList
    ((history.drop (history.length - 6)).map fun m =>
      m.role ++ ": ".toList ++ m.text)

/-- Model of the chat reply stub, reading the history as it stands
after the user turn was appended. -/
def chatReplyStub (history : List Msg) (message : Str) : Str :=
  "(chat) I heard: ".toList ++ [RAGFlow.squote] ++ message.take 200 ++
    [RAGFlow.squote] ++ " -- context:\n".toList ++
    (context_summary history).take 400

/-- Tagged payload of get_reply. -/
inductive Payload where
  | rag (r : RAGFlow.RunResult)
  | chat (reply : Str)
deriving DecidableEq

structure Reply where
  rtype : Str
  payload : Payload
  diagnostic : Scores
deriving DecidableEq

/-- Model of ConversationAgent.get_reply, with the mutable history
made explicit: takes the history before the call and returns the reply
together with the history after the call.  The parameters t1, t2, now
stand for the successive now_ts readings; the agent's default RAG flow
has max_results 8. -/
def get_reply (history : List Msg) (message : Str) (t1 t2 now : ℚ) :
    Reply × List Msg :=
  let hist1 := history ++ [⟨"user".toList, message, t1⟩]
  let rs := Router.is_specific_question message
  if rs.1 then
    let ragResult := RAGFlow.run 8 message now
    (⟨"rag".toList, .rag ragResult, rs.2⟩,
     hist1 ++ [⟨"assistant".toList, ragResult.final.answer, t2⟩])
  else
    let chatResponse := chatReplyStub hist1 message
    (⟨"chat".toList, .chat chatResponse, rs.2⟩,
     hist1 ++ [⟨"assistant".toList, chatResponse, t2⟩])

end ConversationAgent

/-- Concrete result whose snippet is 36 characters long (under the
truncation bound) and still ends with the three dots. -/
def dotsResult : SearchResult :=
  ⟨"T".toList, "https://x.org/a".toList,
   "short snippet that ends with dots...".toList, 1, 0⟩

/-- Concrete result whose snippet is 210 characters long. -/
def longResult : SearchResult :=
  ⟨"L".toList, "https://y.org/b".toList, List.replicate 210 'a', 1, 0⟩

/-- Concrete result whose URL contains the scheme marker in a
non-leading position. -/
def oddUrlResult : SearchResult :=
  ⟨"A".toList, "ahttps://b".toList, "abcdefghijklmnopqrstuv".toList, 1, 0⟩

/-- Concrete result whose URL collides with oddUrlResult under the
code's global substitution but not under the spec's leading strip. -/
def plainUrlResult : SearchResult :=
  ⟨"B".toList, "ab".toList, "vwxyzabcdefghijklmnopq".toList, 1, 0⟩

/-- Three concrete summaries. -/
def threeSummaries : List Summary :=
  [⟨"u1".toList, "t1".toList, "s1".toList⟩,
   ⟨"u2".toList, "t2".toList, "s2".toList⟩,
   ⟨"u3".toList, "t3".toList, "s3".toList⟩]

/-- Same first two summaries as threeSummaries, different third one. -/
def threeSummaries' : List Summary :=
  [⟨"u1".toList, "t1".toList, "s1".toList⟩,
   ⟨"u2".toList, "t2".toList, "s2".toList⟩,
   ⟨"u9".toList, "t9".toList, "s9".toList⟩]

/-- Spec-side reading of the first branch of the length pattern:
somewhere in the string stands a run of exactly 4 digits, with no word
character immediately before or after it. -/
def FourDigitRun (s : Str) : Prop :=
  ∃ pre run suf, s = pre ++ run ++ suf ∧ run.length = 4 ∧
    (∀ c ∈ run, c.isDigit = true) ∧
    leftBd (lastOr none pre) = true ∧ nonWordNext suf = true

/-- Spec-side reading of the second branch: one or more digits, a
percent sign, then a word character, the first digit not preceded by a
word character. -/
def DigitsPercentWord (s : Str) : Prop :=
  ∃ pre ds c suf, s = pre ++ ds ++ '%' :: c :: suf ∧ ds ≠ [] ∧
    (∀ x ∈ ds, x.isDigit = true) ∧
    leftBd (lastOr none pre) = true ∧ isWordChar c = true

/-- Spec-side reading of the third branch: a percent sign standing
between two word characters. -/
def PercentBetweenWords (s : Str) : Prop :=
  ∃ pre a c suf, s = pre ++ a :: '%' :: c :: suf ∧
    isWordChar a = true ∧ isWordChar c = true

/-- Spec-side reading of a standalone word occurrence: the literal
word with no word character immediately before or after it. -/
def WordOccurrence (w s : Str) : Prop :=
  ∃ pre suf, s = pre ++ w ++ suf ∧
    leftBd (lastOr none pre) = true ∧ nonWordNext suf = true

/-- Exact condition under which the length/specificity signal of the
Router fires, stated structurally over the (stripped) message. -/
def LengthSignal (s : Str) : Prop :=
  FourDigitRun s ∨ DigitsPercentWord s ∨ PercentBetweenWords s ∨
  WordOccurrence "exactly".toList s ∨ WordOccurrence "precisely".toList s

/-- Exact condition under which the trigger signal of the Router
fires, stated structurally over the (stripped, lower-cased) message:
some trigger token occurs preceded by the start of the string or a
non-word character and followed immediately by a word character. -/
def TriggerSignal (s : Str) : Prop :=
  ∃ tok pre c post, tok ∈ TRIGGER_TOKENS ∧ s = pre ++ (tok ++ c :: post) ∧
    leftBd (lastOr none pre) = true ∧ isWordChar c = true

/-!  Helper lemmas.  -/

theorem startsWith_append_self (w r : Str) : startsWith w (w ++ r) = true := by
  induction w with
  | nil => rfl
  | cons c cs ih => simp [startsWith, ih]

theorem startsWith_eq_append {w s : Str} (h : startsWith w s = true) :
    s = w ++ s.drop w.length := by
  induction w generalizing s with
  | nil => simp
  | cons c cs ih =>
    cases s with
    | nil => simp [startsWith] at h
    | cons a as =>
      rw [startsWith] at h
      simp only [Bool.and_eq_true, decide_eq_true_eq] at h
      obtain ⟨rfl, h2⟩ := h
      simpa using ih h2

theorem endsWith_append_self (l pat : Str) : endsWith pat (l ++ pat) = true := by
  unfold endsWith
  rw [List.reverse_append]
  exact startsWith_append_self _ _

theorem length_dropWhile_le (p : Char → Bool) :
    (l : Str) → (l.dropWhile p).length ≤ l.length
  | [] => Nat.le_refl _
  | c :: cs => by
    by_cases h : p c
    · simp only [List.dropWhile, h]
      exact Nat.le_succ_of_le (length_dropWhile_le p cs)
    · simp [List.dropWhile, h]

theorem pyRstrip_length_le (s : Str) : (pyRstrip s).length ≤ s.length := by
  unfold pyRstrip
  rw [List.length_reverse]
  calc (s.reverse.dropWhile pyIsSpace).length
      ≤ s.reverse.length := length_dropWhile_le _ _
    _ = s.length := List.length_reverse s

theorem drop_length_takeWhile (p : Char → Bool) (l : Str) :
    l.drop (l.takeWhile p).length = l.dropWhile p := by
  induction l with
  | nil => rfl
  | cons c cs ih =>
    by_cases h : p c
    · simp [List.takeWhile, List.dropWhile, h, ih]
    · simp [List.takeWhile, List.dropWhile, h]

theorem takeWhile_append_eq (p : Char → Bool) (l r : Str)
    (h1 : ∀ c ∈ l, p c = true)
    (h2 : ∀ c, r.head? = some c → p c = false) :
    (l ++ r).takeWhile p = l := by
  induction l with
  | nil =>
    cases r with
    | nil => rfl
    | cons c cs =>
      simp only [List.nil_append, List.takeWhile]
      rw [h2 c rfl]
  | cons c cs ih =>
    simp only [List.cons_append, List.takeWhile]
    rw [h1 c (by simp)]
    simp only [List.takeWhile, List.append_eq]
    rw [ih (fun x hx => h1 x (by simp [hx]))]

theorem lastOr_append_last (p : Option Char) (l : Str) (a : Char) :
    lastOr p (l ++ [a]) = some a := by
  induction l generalizing p with
  | nil => rfl
  | cons c cs ih => simpa [lastOr] using ih (some c)

theorem lastOr_none_eq_some {l : Str} {a : Char}
    (h : lastOr none l = some a) : ∃ l', l = l' ++ [a] := by
  rcases List.eq_nil_or_concat l with rfl | ⟨l', b, rfl⟩
  · exact absurd h (by simp [lastOr])
  · rw [List.concat_eq_append, lastOr_append_last] at h
    rw [List.concat_eq_append]
    exact ⟨l', by rw [Option.some.inj h]⟩

theorem scanHit_of_decomp (hitAt : Option Char → Str → Bool)
    (prev : Option Char) (pre suf : Str)
    (h : hitAt (lastOr prev pre) suf = true) :
    scanHit hitAt prev (pre ++ suf) = true := by
  induction pre generalizing prev with
  | nil =>
    cases suf with
    | nil => exact h
    | cons c cs =>
      rw [List.nil_append, scanHit, Bool.or_eq_true]
      exact Or.inl h
  | cons c cs ih =>
    simp only [List.cons_append, scanHit, Bool.or_eq_true]
    exact Or.inr (ih (some c) h)

theorem scanHit_iff (hitAt : Option Char → Str → Bool)
    (prev : Option Char) (s : Str) :
    scanHit hitAt prev s = true ↔
      ∃ pre suf, s = pre ++ suf ∧ hitAt (lastOr prev pre) suf = true := by
  constructor
  · intro h
    induction s generalizing prev with
    | nil => exact ⟨[], [], rfl, h⟩
    | cons c cs ih =>
      rw [scanHit, Bool.or_eq_true] at h
      rcases h with h | h
      · exact ⟨[], c :: cs, rfl, h⟩
      · obtain ⟨pre, suf, heq, hh⟩ := ih (some c) h
        exact ⟨c :: pre, suf, by simp [heq], hh⟩
  · rintro ⟨pre, suf, rfl, h⟩
    exact scanHit_of_decomp hitAt prev pre suf h

/-- Threshold comparison over the exact rational weights, decided by
cases on the four Boolean signals: the total reaches 1.5 iff the
trigger fired, or the question word fired together with one of the two
small signals, or both small signals fired. -/
theorem route_decision (q t sw l : Bool) :
    (decide ((3/2 : ℚ) ≤ (if q then (1 : ℚ) else 0) + (if t then (2 : ℚ) else 0) +
      (if sw then (8/10 : ℚ) else 0) + (if l then (7/10 : ℚ) else 0)))
    = (t || (q && (sw || l)) || (sw && l)) := by
  cases q <;> cases t <;> cases sw <;> cases l <;> simp <;> norm_num

/-- Evaluation form of the router: the pair it returns, written with
the four Boolean signal detectors. -/
theorem is_specific_question_eval (m : Str) :
    Router.is_specific_question m =
      ((triggerHit (lowerStr (pyStrip m)) ||
        (questionHit (lowerStr (pyStrip m)) &&
          (sourceHit (lowerStr (pyStrip m)) || lengthHit (pyStrip m))) ||
        (sourceHit (lowerStr (pyStrip m)) && lengthHit (pyStrip m))),
       ⟨if questionHit (lowerStr (pyStrip m)) then 1 else 0,
        if triggerHit (lowerStr (pyStrip m)) then 2 else 0,
        if sourceHit (lowerStr (pyStrip m)) then 8/10 else 0,
        if lengthHit (pyStrip m) then 7/10 else 0⟩) := by
  simp only [Router.is_specific_question]
  rw [route_decision]

theorem validateGo_sublist (rs : List SearchResult) :
    ∀ seen, List.Sublist (RAGFlow.validateGo seen rs) rs := by
  induction rs with
  | nil => intro seen; exact List.Sublist.refl []
  | cons r rest ih =>
    intro seen
    rw [RAGFlow.validateGo]
    by_cases h1 : domain r.url ∈ seen
    · rw [if_pos h1]; exact (ih seen).cons r
    · rw [if_neg h1]
      by_cases h2 : r.snippet.length < 20
      · rw [if_pos h2]; exact (ih seen).cons r
      · rw [if_neg h2]; exact (ih _).cons₂ r

theorem validateGo_snippet (rs : List SearchResult) :
    ∀ seen, ∀ r ∈ RAGFlow.validateGo seen rs, ¬(r.snippet.length < 20) := by
  induction rs with
  | nil => intro seen r hr; simp [RAGFlow.validateGo] at hr
  | cons r rest ih =>
    intro seen x hx
    rw [RAGFlow.validateGo] at hx
    by_cases h1 : domain r.url ∈ seen
    · rw [if_pos h1] at hx; exact ih seen x hx
    · rw [if_neg h1] at hx
      by_cases h2 : r.snippet.length < 20
      · rw [if_pos h2] at hx; exact ih seen x hx
      · rw [if_neg h2] at hx
        rcases List.mem_cons.mp hx with rfl | hx
        · exact h2
        · exact ih _ x hx

theorem validateGo_domains (rs : List SearchResult) :
    ∀ seen, ((RAGFlow.validateGo seen rs).map fun r => domain r.url).Nodup ∧
      ∀ d ∈ (RAGFlow.validateGo seen rs).map (fun r => domain r.url), d ∉ seen := by
  induction rs with
  | nil => intro seen; simp [RAGFlow.validateGo]
  | cons r rest ih =>
    intro seen
    rw [RAGFlow.validateGo]
    by_cases h1 : domain r.url ∈ seen
    · rw [if_pos h1]; exact ih seen
    · rw [if_neg h1]
      by_cases h2 : r.snippet.length < 20
      · rw [if_pos h2]; exact ih seen
      · rw [if_neg h2]
        obtain ⟨ihn, ihs⟩ := ih (domain r.url :: seen)
        refine ⟨?_, ?_⟩
        · rw [List.map_cons, List.nodup_cons]
          refine ⟨fun hmem => ?_, ihn⟩
          exact ihs _ hmem (List.mem_cons_self _ _)
        · intro d hd
          rw [List.map_cons] at hd
          rcases List.mem_cons.mp hd with rfl | hd
          · exact h1
          · intro hds
            exact ihs d hd (List.mem_cons_of_mem _ hds)

theorem validateGo_eq_keepFirst (rs : List SearchResult) :
    ∀ seen, RAGFlow.validateGo seen rs =
      RAGFlow.keepFirstByDomain seen
        (rs.filter fun r => !(r.snippet.length < 20)) := by
  induction rs with
  | nil => intro seen; rfl
  | cons r rest ih =>
    intro seen
    rw [RAGFlow.validateGo, List.filter_cons]
    by_cases h2 : r.snippet.length < 20
    · rw [decide_eq_true h2, Bool.not_true]
      rw [if_neg Bool.false_ne_true]
      by_cases h1 : domain r.url ∈ seen
      · rw [if_pos h1, ih seen]
      · rw [if_neg h1, if_pos h2, ih seen]
    · rw [decide_eq_false h2, Bool.not_false]
      rw [if_pos (Eq.refl true)]
      rw [RAGFlow.keepFirstByDomain]
      by_cases h1 : domain r.url ∈ seen
      · rw [if_pos h1, if_pos h1, ih seen]
      · rw [if_neg h1, if_neg h2, if_neg h1, ih _]

theorem validateGo_id (rs : List SearchResult) :
    ∀ seen, (∀ r ∈ rs, ¬(r.snippet.length < 20)) →
      (∀ r ∈ rs, domain r.url ∉ seen) →
      ((rs.map fun r => domain r.url).Nodup) →
      RAGFlow.validateGo seen rs = rs := by
  induction rs with
  | nil => intro seen _ _ _; rfl
  | cons r rest ih =>
    intro seen hsnip hseen hnd
    rw [RAGFlow.validateGo,
      if_neg (hseen r (List.mem_cons_self _ _)),
      if_neg (hsnip r (List.mem_cons_self _ _))]
    rw [List.map_cons, List.nodup_cons] at hnd
    rw [ih (domain r.url :: seen)
      (fun x hx => hsnip x (List.mem_cons_of_mem _ hx))
      (fun x hx => by
        intro hmem
        rcases List.mem_cons.mp hmem with heq | hmem'
        · exact hnd.1 (heq ▸ List.mem_map_of_mem (fun r => domain r.url) hx)
        · exact hseen x (List.mem_cons_of_mem _ hx) hmem')
      hnd.2]

theorem validateGo_cons_skip (seen : List Str) (r : SearchResult)
    (rest : List SearchResult) (h : domain r.url ∈ seen) :
    RAGFlow.validateGo seen (r :: rest) = RAGFlow.validateGo seen rest := by
  rw [RAGFlow.validateGo, if_pos h]

theorem validateGo_cons_keep (seen : List Str) (r : SearchResult)
    (rest : List SearchResult) (h1 : domain r.url ∉ seen)
    (h2 : ¬(r.snippet.length < 20)) :
    RAGFlow.validateGo seen (r :: rest) =
      r :: RAGFlow.validateGo (domain r.url :: seen) rest := by
  rw [RAGFlow.validateGo, if_neg h1, if_neg h2]

/-!  Claim theorems.  -/

/-- C2, counterexample: for the empty summary list, the dict built by
RAGFlow.answer has NO used_count key at all, contradicting the claim
that RAGFlow.answer always returns used_count equal to the number of
summaries received (0 in the degenerate case). -/
theorem answer_empty_omits_used_count :
    ¬ ((RAGFlow.answer "q".toList []).used_count = some 0) := by decide

/-- C2, amended: RAGFlow.answer always returns a well-formed RagResult
whose used_count equals the number of summaries received whenever that
number is positive; in the degenerate no-summaries case the used_count
key is absent. -/
theorem answer_used_count (q : Str) (s : List Summary) :
    (RAGFlow.answer q s).used_count =
      if s = [] then none else some s.length := by
  cases s <;> simp [RAGFlow.answer]

/-- C6: for a non-empty summary list the answer of RAGFlow.answer is
composed from exactly the first two summaries in received order (the
body is a function of the question and of the two-element head of the
list alone), the citations list carries every summary's source in
order, and used_count is the total count; for the empty list the fixed
no-sources answer with an empty citations list is returned. -/
theorem answer_compose (q : Str) (s : List Summary) (h : s ≠ []) :
    (RAGFlow.answer q s).citations = s.map (fun t => t.source) ∧
    (RAGFlow.answer q s).used_count = some s.length ∧
    (RAGFlow.answer q s).answer = RAGFlow.answerText q (s.take 2) ∧
    (∀ s', s' ≠ [] → s'.take 2 = s.take 2 →
      (RAGFlow.answer q s').answer = (RAGFlow.answer q s).answer) ∧
    (RAGFlow.answer q []).answer = RAGFlow.noSourcesText ∧
    (RAGFlow.answer q []).citations = [] := by
  cases s with
  | nil => exact absurd rfl h
  | cons a as =>
    refine ⟨rfl, rfl, rfl, ?_, rfl, rfl⟩
    intro s' h' htake
    cases s' with
    | nil => exact absurd rfl h'
    | cons b bs =>
      show RAGFlow.answerText q ((b :: bs).take 2) = _
      rw [htake]
      rfl

/-- C6, witness at three concrete summaries. -/
theorem answer_compose_witness :
    (RAGFlow.answer "q".toList threeSummaries).citations =
      threeSummaries.map (fun t => t.source) ∧
    (RAGFlow.answer "q".toList threeSummaries).used_count = some 3 ∧
    (RAGFlow.answer "q".toList threeSummaries').answer =
      (RAGFlow.answer "q".toList threeSummaries).answer := by
  obtain ⟨h1, h2, -, h4, -, -⟩ :=
    answer_compose "q".toList threeSummaries (by decide)
  exact ⟨h1, h2, h4 threeSummaries' (by decide) (by decide)⟩

/-- C5, counterexample: a snippet of 36 characters (at most 200, so no
truncation happens) that itself ends with three dots yields a summary
that still ends with the ellipsis marker, contradicting the claim that
summaries of short snippets never end with one. -/
theorem summarize_short_keeps_dots :
    dotsResult.snippet.length ≤ 200 ∧
    (RAGFlow.summarize [dotsResult]).map
      (fun o => endsWith "...".toList o.summary) = [true] := by decide

/-- C5, amended: RAGFlow.summarize returns exactly one summary per
input in the same order; a summary whose source snippet exceeds 200
characters is the first 200 characters right-stripped followed by the
ellipsis marker, and a summary whose snippet is at most 200 characters
is the whole snippet right-stripped with nothing appended (so it ends
with the marker only when the stripped snippet already does). -/
theorem summarize_spec (rs : List SearchResult) :
    (RAGFlow.summarize rs).length = rs.length ∧
    List.Forall₂ (fun (r : SearchResult) (o : Summary) =>
      o.source = r.url ∧ o.title = r.title ∧
      (200 < r.snippet.length →
        o.summary = pyRstrip (r.snippet.take 200) ++ "...".toList ∧
        endsWith "...".toList o.summary = true) ∧
      (r.snippet.length ≤ 200 → o.summary = pyRstrip r.snippet))
      rs (RAGFlow.summarize rs) := by
  constructor
  · simp [RAGFlow.summarize]
  · induction rs with
    | nil => exact List.Forall₂.nil
    | cons r rest ih =>
      refine List.Forall₂.cons ⟨rfl, rfl, ?_, ?_⟩ ih
      · intro hlong
        constructor
        · simp [RAGFlow.summarizeOne, if_pos hlong]
        · simp only [RAGFlow.summarizeOne, if_pos hlong]
          exact endsWith_append_self _ _
      · intro hshort
        simp [RAGFlow.summarizeOne, Nat.not_lt.mpr hshort,
          List.take_of_length_le hshort]

/-- C5, witness: the long concrete result is truncated with the marker
and the short one is only right-stripped. -/
theorem summarize_spec_witness :
    (RAGFlow.summarize [longResult, dotsResult]).map (fun o => o.summary) =
      [pyRstrip (longResult.snippet.take 200) ++ "...".toList,
       pyRstrip dotsResult.snippet] := by
  obtain ⟨-, h⟩ := summarize_spec [longResult, dotsResult]
  rcases h with - | ⟨⟨-, -, h3, -⟩, h'⟩
  rcases h' with - | ⟨⟨-, -, -, h4⟩, -⟩
  obtain ⟨he, -⟩ := h3 (by
    rw [show longResult.snippet.length = 210 from List.length_replicate 210 'a']
    norm_num)
  simp only [RAGFlow.summarize, List.map_cons, List.map_nil]
  rw [he, h4 (by decide)]

/-- C10: every summary text produced by RAGFlow.summarize is at most
203 characters long: at most 200 characters of right-stripped snippet
plus the 3-character ellipsis marker when truncation occurred. -/
theorem summary_length_bound (rs : List SearchResult) (o : Summary)
    (h : o ∈ RAGFlow.summarize rs) : o.summary.length ≤ 203 := by
  obtain ⟨r, -, rfl⟩ := List.mem_map.mp h
  unfold RAGFlow.summarizeOne
  simp only [List.length_append]
  have h1 : (pyRstrip (r.snippet.take 200)).length ≤ 200 :=
    le_trans (pyRstrip_length_le _) (List.length_take_le _ _)
  have h2 : (if 200 < r.snippet.length then "...".toList else []).length ≤ 3 := by
    split <;> simp
  omega

/-- C10, witness at a concrete long result. -/
theorem summary_length_bound_witness :
    (RAGFlow.summarizeOne longResult).summary.length ≤ 203 :=
  summary_length_bound [longResult] (RAGFlow.summarizeOne longResult)
    (by simp [RAGFlow.summarize])

/-- C7: one call to get_reply returns the starting history extended by
exactly two entries, first the user message then the assistant reply,
on both the chat path and the RAG path; in particular every
pre-existing entry is left unchanged in its original position. -/
theorem get_reply_appends (history : List Msg) (message : Str)
    (t1 t2 now : ℚ) :
    ∃ r, (ConversationAgent.get_reply history message t1 t2 now).2 =
      history ++ [⟨"user".toList, message, t1⟩, ⟨"assistant".toList, r, t2⟩] ∧
    (ConversationAgent.get_reply history message t1 t2 now).2.take
      history.length = history := by
  cases h : (Router.is_specific_question message).1 with
  | true =>
    have heq : (ConversationAgent.get_reply history message t1 t2 now).2 =
        history ++ [⟨"user".toList, message, t1⟩,
          ⟨"assistant".toList, (RAGFlow.run 8 message now).final.answer, t2⟩] := by
      simp [ConversationAgent.get_reply, h]
    exact ⟨_, heq, by rw [heq]; exact List.take_left history _⟩
  | false =>
    have heq : (ConversationAgent.get_reply history message t1 t2 now).2 =
        history ++ [⟨"user".toList, message, t1⟩,
          ⟨"assistant".toList, ConversationAgent.chatReplyStub
            (history ++ [⟨"user".toList, message, t1⟩]) message, t2⟩] := by
      simp [ConversationAgent.get_reply, h]
    exact ⟨_, heq, by rw [heq]; exact List.take_left history _⟩

/-- C4, counterexample: the code's domain is computed by substituting
the scheme pattern away EVERYWHERE in the URL, not only at its head;
for a URL carrying the scheme marker in a non-leading position the two
computations differ, and validate deduplicates by the code's domain.
Both snippets here are long enough and the two URLs have distinct
domains under the claim's (leading strip) reading, yet the second
result is dropped. -/
theorem validate_drops_spec_distinct_domains :
    RAGFlow.validate [oddUrlResult, plainUrlResult] = [oddUrlResult] ∧
    specDomain oddUrlResult.url ≠ specDomain plainUrlResult.url ∧
    domain oddUrlResult.url = domain plainUrlResult.url ∧
    20 ≤ oddUrlResult.snippet.length ∧
    20 ≤ plainUrlResult.snippet.length := by decide

/-- C4, amended: with the domain computed as the code does (the scheme
pattern, optionally followed by www., deleted at EVERY occurrence in
the URL, then the part before the first slash), RAGFlow.validate
returns an order-preserving sublist of its input consisting of results
with snippets of length at least 20, its output domains are pairwise
distinct, and it equals first-per-domain deduplication of the
long-snippet results (so of two results sharing a domain only the
earlier one can survive). -/
theorem validate_spec (rs : List SearchResult) :
    List.Sublist (RAGFlow.validate rs) rs ∧
    ((RAGFlow.validate rs).map fun r => domain r.url).Nodup ∧
    (∀ r ∈ RAGFlow.validate rs, 20 ≤ r.snippet.length) ∧
    RAGFlow.validate rs =
      RAGFlow.keepFirstByDomain [] (rs.filter fun r => !(r.snippet.length < 20)) := by
  refine ⟨validateGo_sublist rs [], (validateGo_domains rs []).1, ?_, ?_⟩
  · intro r hr
    exact Nat.not_lt.mp (validateGo_snippet rs [] r hr)
  · exact validateGo_eq_keepFirst rs []

/-- C4, witness at a concrete two-element list. -/
theorem validate_spec_witness :
    20 ≤ oddUrlResult.snippet.length ∧
    ((RAGFlow.validate [oddUrlResult, plainUrlResult]).map
      fun r => domain r.url).Nodup := by
  obtain ⟨-, h2, h3, -⟩ := validate_spec [oddUrlResult, plainUrlResult]
  exact ⟨h3 oddUrlResult (by decide), h2⟩

/-- C9: RAGFlow.validate is idempotent — every result it keeps already
has a snippet of length at least 20 and a domain distinct from every
other kept result, so a second pass keeps everything. -/
theorem validate_idempotent (rs : List SearchResult) :
    RAGFlow.validate (RAGFlow.validate rs) = RAGFlow.validate rs :=
  validateGo_id (RAGFlow.validateGo [] rs) []
    (validateGo_snippet rs [])
    (fun _ _ h => List.not_mem_nil _ h)
    (validateGo_domains rs []).1

theorem mkFake_snippet_long (q : Str) (now : ℚ) (i : Nat) :
    ¬((RAGFlow.mkFake q now i).snippet.length < 20) := by
  have e1 : ("Snippet ".toList).length = 8 := rfl
  have e2 : (" summarizing content relevant to ".toList).length = 33 := rfl
  have e3 : ("...".toList).length = 3 := rfl
  have e4 : ([RAGFlow.squote] : Str).length = 1 := rfl
  show ¬(("Snippet ".toList ++ (Nat.repr i).toList ++
    " summarizing content relevant to ".toList ++ [RAGFlow.squote] ++ q ++
    [RAGFlow.squote] ++ "...".toList).length < 20)
  simp only [List.length_append, e1, e2, e3, e4]
  omega

theorem validate_search_stub (q : Str) (now : ℚ) :
    RAGFlow.validate (RAGFlow.search 8 q now) = [RAGFlow.mkFake q now 0] := by
  have hs : RAGFlow.search 8 q now =
      [RAGFlow.mkFake q now 0, RAGFlow.mkFake q now 1, RAGFlow.mkFake q now 2,
       RAGFlow.mkFake q now 3, RAGFlow.mkFake q now 4, RAGFlow.mkFake q now 5,
       RAGFlow.mkFake q now 6, RAGFlow.mkFake q now 7] := rfl
  have hd0 : domain (RAGFlow.mkFake q now 0).url = "example.com".toList := rfl
  have hd1 : domain (RAGFlow.mkFake q now 1).url = "example.com".toList := rfl
  have hd2 : domain (RAGFlow.mkFake q now 2).url = "example.com".toList := rfl
  have hd3 : domain (RAGFlow.mkFake q now 3).url = "example.com".toList := rfl
  have hd4 : domain (RAGFlow.mkFake q now 4).url = "example.com".toList := rfl
  have hd5 : domain (RAGFlow.mkFake q now 5).url = "example.com".toList := rfl
  have hd6 : domain (RAGFlow.mkFake q now 6).url = "example.com".toList := rfl
  have hd7 : domain (RAGFlow.mkFake q now 7).url = "example.com".toList := rfl
  have hm : ∀ i, domain (RAGFlow.mkFake q now i).url = "example.com".toList →
      domain (RAGFlow.mkFake q now i).url ∈ ["example.com".toList] := by
    intro i h
    rw [h]
    exact List.mem_singleton.mpr rfl
  show RAGFlow.validateGo [] (RAGFlow.search 8 q now) = [RAGFlow.mkFake q now 0]
  rw [hs,
    validateGo_cons_keep _ _ _ (fun h => List.not_mem_nil _ h)
      (mkFake_snippet_long q now 0), hd0,
    validateGo_cons_skip _ _ _ (hm 1 hd1),
    validateGo_cons_skip _ _ _ (hm 2 hd2),
    validateGo_cons_skip _ _ _ (hm 3 hd3),
    validateGo_cons_skip _ _ _ (hm 4 hd4),
    validateGo_cons_skip _ _ _ (hm 5 hd5),
    validateGo_cons_skip _ _ _ (hm 6 hd6),
    validateGo_cons_skip _ _ _ (hm 7 hd7)]
  rfl

/-- C8: a run of the pipeline over the bundled search stub keeps
exactly one validated result — all stub results live on the single
domain example.com and every stub snippet is long enough, so domain
deduplication keeps only the first — hence one summary, one citation
and used_count 1, for every question. -/
theorem run_stub_single_source (q : Str) (now : ℚ) :
    (RAGFlow.run 8 q now).validated.length = 1 ∧
    (RAGFlow.run 8 q now).summaries.length = 1 ∧
    (RAGFlow.run 8 q now).final.citations.length = 1 ∧
    (RAGFlow.run 8 q now).final.used_count = some 1 := by
  have hv := validate_search_stub q now
  have hrun : RAGFlow.run 8 q now =
      ⟨RAGFlow.answer q (RAGFlow.summarize (RAGFlow.validate (RAGFlow.search 8 q now))),
       RAGFlow.search 8 q now,
       RAGFlow.validate (RAGFlow.search 8 q now),
       RAGFlow.summarize (RAGFlow.validate (RAGFlow.search 8 q now))⟩ := rfl
  rw [hrun, hv]
  refine ⟨rfl, rfl, ?_, rfl⟩
  simp [RAGFlow.answer, RAGFlow.summarize]

theorem isDigit_isWordChar {c : Char} (h : c.isDigit = true) :
    isWordChar c = true := by
  simp [isWordChar, h]

/-- C1, counterexample: a message containing the trigger token
followed by a space — the claim asserts this routes with trigger score
2.0 regardless of what follows the token, yet the pattern's trailing
word boundary sits right after the colon, so it only matches when a
word character follows immediately; here nothing matches and the
message is not routed at all. -/
theorem trigger_then_space_not_routed :
    startsWith "search:".toList "search: foo".toList = true ∧
    Router.is_specific_question "search: foo".toList = (false, ⟨0, 0, 0, 0⟩) := by
  have ht : triggerHit (lowerStr (pyStrip "search: foo".toList)) = false := by decide
  have hq : questionHit (lowerStr (pyStrip "search: foo".toList)) = false := by decide
  have hs : sourceHit (lowerStr (pyStrip "search: foo".toList)) = false := by decide
  have hl : lengthHit (pyStrip "search: foo".toList) = false := by decide
  refine ⟨by decide, ?_⟩
  rw [is_specific_question_eval, ht, hq, hs, hl]
  simp

theorem trigHitAt_to_signal (pre suf : Str)
    (h : trigHitAt (lastOr none pre) suf = true) :
    TriggerSignal (pre ++ suf) := by
  unfold trigHitAt at h
  rw [List.any_eq_true] at h
  obtain ⟨tok, htok, hb⟩ := h
  simp only [Bool.and_eq_true, and_assoc] at hb
  obtain ⟨hsw, hlb, hniw⟩ := hb
  have hsuf := startsWith_eq_append hsw
  cases htail : suf.drop tok.length with
  | nil => rw [htail] at hniw; exact absurd hniw (by simp [nextIsWord])
  | cons c tl =>
    rw [htail] at hsuf hniw
    exact ⟨tok, pre, c, tl, htok, by rw [hsuf], hlb, hniw⟩

theorem signal_to_triggerHit (s : Str) (h : TriggerSignal s) :
    triggerHit s = true := by
  obtain ⟨tok, pre, c, post, htok, rfl, hlb, hc⟩ := h
  unfold triggerHit
  apply scanHit_of_decomp
  unfold trigHitAt
  rw [List.any_eq_true]
  refine ⟨tok, htok, ?_⟩
  rw [startsWith_append_self, hlb, List.drop_left]
  simp [nextIsWord, hc]

theorem triggerHit_iff (s : Str) : triggerHit s = true ↔ TriggerSignal s := by
  constructor
  · intro h
    obtain ⟨pre, suf, rfl, hh⟩ := (scanHit_iff trigHitAt none s).mp h
    exact trigHitAt_to_signal pre suf hh
  · exact signal_to_triggerHit s

/-- C1, amended: the trigger score is 2.0 exactly when, in the
stripped lower-cased message, some trigger token occurs preceded by
the start of the string or a non-word character and followed
IMMEDIATELY by a word character; on every other message (a token
followed by a space, punctuation, or standing at the end included)
the trigger score is 0.0.  Whenever the trigger fires the message is
routed, since the weight 2.0 alone exceeds the threshold 1.5. -/
theorem trigger_token_routes (message : Str) :
    ((Router.is_specific_question message).2.trigger = 2 ↔
      TriggerSignal (lowerStr (pyStrip message))) ∧
    ((Router.is_specific_question message).2.trigger = 2 →
      (Router.is_specific_question message).1 = true) ∧
    ((Router.is_specific_question message).2.trigger = 2 ∨
      (Router.is_specific_question message).2.trigger = 0) := by
  rw [is_specific_question_eval]
  cases ht : triggerHit (lowerStr (pyStrip message)) with
  | true =>
    refine ⟨?_, ?_, ?_⟩
    · simp only [ht, if_true]
      exact iff_of_true trivial ((triggerHit_iff _).mp ht)
    · intro _
      simp [ht]
    · left
      simp [ht]
  | false =>
    have hns : ¬ TriggerSignal (lowerStr (pyStrip message)) := fun hs =>
      Bool.false_ne_true (ht ▸ (triggerHit_iff _).mpr hs)
    refine ⟨?_, ?_, ?_⟩
    · refine iff_of_false ?_ hns
      simp only [ht]
      norm_num
    · intro h
      simp only [ht, Bool.false_eq_true, if_false] at h
      exact absurd h (by norm_num)
    · right
      simp [ht]

/-- C1, witness: the token immediately followed by a word character
does fire with trigger score 2.0 and routes the message. -/
theorem trigger_token_routes_witness :
    (Router.is_specific_question "search:foo".toList).2.trigger = 2 ∧
    (Router.is_specific_question "search:foo".toList).1 = true := by
  obtain ⟨hiff, himp, -⟩ := trigger_token_routes "search:foo".toList
  have hsig : TriggerSignal (lowerStr (pyStrip "search:foo".toList)) :=
    ⟨"search:".toList, [], 'f', "oo".toList,
      by decide, by decide, by decide, by decide⟩
  have ht := hiff.mpr hsig
  exact ⟨ht, himp ht⟩

theorem lengthHitAt_to_signal (pre suf : Str)
    (h : lengthHitAt (lastOr none pre) suf = true) :
    LengthSignal (pre ++ suf) := by
  simp only [lengthHitAt, Bool.or_eq_true, Bool.and_eq_true, or_assoc,
    and_assoc, beq_iff_eq] at h
  rcases h with ⟨hlb, hlen, hnw⟩ | ⟨hlb, hne, hsw, hniw⟩ | ⟨hm, hsw, hniw⟩ |
    ⟨hlb, hsw, hnw⟩ | ⟨hlb, hsw, hnw⟩
  · refine Or.inl ⟨pre, suf.takeWhile Char.isDigit, suf.dropWhile Char.isDigit,
      ?_, hlen, fun c hc => List.mem_takeWhile_imp hc, hlb, ?_⟩
    · rw [List.append_assoc, List.takeWhile_append_dropWhile Char.isDigit suf]
    · rw [drop_length_takeWhile] at hnw
      exact hnw
  · rw [drop_length_takeWhile] at hsw hniw
    have hdw : suf.dropWhile Char.isDigit =
        '%' :: (suf.dropWhile Char.isDigit).drop 1 := by
      have h0 := startsWith_eq_append hsw
      rw [show ("%".toList : Str) = ['%'] from rfl] at h0
      rw [List.length_singleton, List.singleton_append] at h0
      exact h0
    have hne' : suf.takeWhile Char.isDigit ≠ [] := by
      intro hemp
      rw [hemp] at hne
      simp at hne
    cases htail : (suf.dropWhile Char.isDigit).drop 1 with
    | nil => rw [htail] at hniw; exact absurd hniw (by simp [nextIsWord])
    | cons c tl =>
      rw [htail] at hdw hniw
      refine Or.inr (Or.inl ⟨pre, suf.takeWhile Char.isDigit, c, tl, ?_, hne',
        fun x hx => List.mem_takeWhile_imp hx, hlb, hniw⟩)
      rw [List.append_assoc, ← hdw, List.takeWhile_append_dropWhile]
  · cases hp : lastOr none pre with
    | none => rw [hp] at hm; exact absurd hm (by simp)
    | some a =>
      rw [hp] at hm
      obtain ⟨pre', rfl⟩ := lastOr_none_eq_some hp
      have hsuf : suf = '%' :: suf.drop 1 := by
        have h0 := startsWith_eq_append hsw
        rw [show ("%".toList : Str) = ['%'] from rfl] at h0
        rw [List.length_singleton, List.singleton_append] at h0
        exact h0
      cases htail : suf.drop 1 with
      | nil =>
        rw [htail] at hniw
        exact absurd hniw (by simp [nextIsWord])
      | cons c tl =>
        rw [htail] at hsuf hniw
        refine Or.inr (Or.inr (Or.inl ⟨pre', a, c, tl, ?_, hm, hniw⟩))
        rw [hsuf, ← List.append_cons]
  · have hsuf := startsWith_eq_append hsw
    rw [show ("exactly".toList).length = 7 from rfl] at hsuf
    refine Or.inr (Or.inr (Or.inr (Or.inl ⟨pre, suf.drop 7, ?_, hlb, hnw⟩)))
    rw [List.append_assoc, ← hsuf]
  · have hsuf := startsWith_eq_append hsw
    rw [show ("precisely".toList).length = 9 from rfl] at hsuf
    refine Or.inr (Or.inr (Or.inr (Or.inr ⟨pre, suf.drop 9, ?_, hlb, hnw⟩)))
    rw [List.append_assoc, ← hsuf]

theorem head_not_digit_of_nonWord {l : Str} (h : nonWordNext l = true) :
    ∀ c, l.head? = some c → c.isDigit = false := by
  intro c hc
  cases l with
  | nil => simp at hc
  | cons d tl =>
    simp only [List.head?, Option.some.injEq] at hc
    cases hd : Char.isDigit c with
    | false => rfl
    | true =>
      rw [nonWordNext, hc, isDigit_isWordChar hd] at h
      simp at h

theorem signal_to_lengthHit (s : Str) (h : LengthSignal s) :
    lengthHit s = true := by
  unfold lengthHit
  rcases h with ⟨pre, run, suf, rfl, hlen, hdig, hlb, hnw⟩ |
    ⟨pre, ds, c, suf, rfl, hne, hdig, hlb, hc⟩ |
    ⟨pre, a, c, suf, rfl, ha, hc⟩ |
    ⟨pre, suf, rfl, hlb, hnw⟩ | ⟨pre, suf, rfl, hlb, hnw⟩
  · rw [List.append_assoc]
    apply scanHit_of_decomp
    have htw : (run ++ suf).takeWhile Char.isDigit = run :=
      takeWhile_append_eq _ _ _ hdig (head_not_digit_of_nonWord hnw)
    have hd4 : (run ++ suf).drop 4 = suf := by
      rw [← hlen]
      exact List.drop_left _ _
    simp [lengthHitAt, htw, hlb, hlen, hd4, hnw]
  · rw [List.append_assoc]
    apply scanHit_of_decomp
    have htw : (ds ++ '%' :: c :: suf).takeWhile Char.isDigit = ds := by
      refine takeWhile_append_eq _ _ _ hdig ?_
      intro c0 hc0
      simp only [List.head?, Option.some.injEq] at hc0
      subst hc0
      decide
    have hemp : ds.isEmpty = false := by
      cases ds with
      | nil => exact absurd rfl hne
      | cons d tl => rfl
    simp only [lengthHitAt, htw, List.drop_left]
    simp [hlb, hemp, startsWith, nextIsWord, hc]
  · rw [List.append_cons]
    apply scanHit_of_decomp
    rw [lastOr_append_last]
    simp only [lengthHitAt]
    simp [ha, startsWith, nextIsWord, hc]
  · rw [List.append_assoc]
    apply scanHit_of_decomp
    have hdrop : ("exactly".toList ++ suf).drop 7 = suf := rfl
    simp only [lengthHitAt]
    simp [hlb, startsWith, hdrop, hnw]
  · rw [List.append_assoc]
    apply scanHit_of_decomp
    have hdrop : ("precisely".toList ++ suf).drop 9 = suf := rfl
    simp only [lengthHitAt]
    simp [hlb, startsWith, hdrop, hnw]

theorem lengthHit_iff (s : Str) : lengthHit s = true ↔ LengthSignal s := by
  constructor
  · intro h
    obtain ⟨pre, suf, rfl, hh⟩ := (scanHit_iff lengthHitAt none s).mp h
    exact lengthHitAt_to_signal pre suf hh
  · exact signal_to_lengthHit s

/-- C3, counterexample: this message contains the percentage 50% (it
decomposes as shown), yet the length score is 0, not 0.7 — the
pattern's trailing word boundary sits right after the percent sign, so
a percentage only counts when a word character follows it
immediately. -/
theorem percent_at_end_scores_zero :
    "Result was ".toList ++ "50%".toList = "Result was 50%".toList ∧
    (Router.is_specific_question "Result was 50%".toList).2.length = 0 := by
  have hl : lengthHit (pyStrip "Result was 50%".toList) = false := by decide
  refine ⟨by decide, ?_⟩
  rw [is_specific_question_eval, hl]
  simp

/-- C3, amended: the length score is 0.7 exactly when the stripped
message contains a standalone run of exactly 4 digits, or a digit run
followed by a percent sign that is itself followed by a word
character, or a percent sign between two word characters, or the
lower-case words exactly or precisely standing alone (the pattern is
case-sensitive); on every other message the score is 0. -/
theorem length_score_characterization (m : Str) :
    ((Router.is_specific_question m).2.length = 7/10 ↔
      LengthSignal (pyStrip m)) ∧
    ((Router.is_specific_question m).2.length = 7/10 ∨
      (Router.is_specific_question m).2.length = 0) := by
  rw [is_specific_question_eval]
  cases hl : lengthHit (pyStrip m) with
  | true =>
    constructor
    · simp only [hl, if_true]
      exact iff_of_true trivial ((lengthHit_iff _).mp hl)
    · left
      simp [hl]
  | false =>
    have hns : ¬ LengthSignal (pyStrip m) := fun hs =>
      Bool.false_ne_true (hl ▸ (lengthHit_iff _).mpr hs)
    constructor
    · refine iff_of_false ?_ hns
      simp only [hl]
      norm_num
    · right
      simp [hl]
